import Mathlib

/-!
# Verification of the inotifykit recursive filesystem notifier

A shallow embedding of the watcher core exercised by
`examples/watch_dir_recursively.py`: the `Notifier` façade, its
`WatchTable` of native watch handles, the `TreeWalker` used to seed and
extend watches, and the `EventTranslator` that turns raw per-directory
kernel notifications into recursive semantic events.  The library code
itself is not shipped with the repository (only the example caller is),
so every component is modelled from the specification; each such
definition says so in its doc comment.
-/

namespace InotifyKit

/-- A filesystem path, represented by its list of name components from the
root of the watched universe. -/
abbrev Path := List String

/-- Modelled from the spec: `watch()` "canonicalizes" each path before any
other processing.  Canonicalization resolves `.` and `..` components. -/
def canonicalize (p : Path) : Path :=
  p.foldl
    (fun acc c =>
      if c = "." then acc
      else if c = ".." then acc.dropLast
      else acc ++ [c]) []

/-- Whether `q` lies in the subtree rooted at `p` (including `p` itself). -/
def Path.isUnder (p q : Path) : Bool :=
  p.isPrefixOf q

/-- Whether `q` is a strict descendant of `p`. -/
def Path.isStrictlyUnder (p q : Path) : Bool :=
  p.isPrefixOf q && p ≠ q

/-! ## Filesystem collaborator -/

/-- Modelled from the spec: the directory tree seen by the filesystem
collaborator.  A node is a real directory with children, a plain file, or a
symlink to a directory (the target recorded as a path, which may point
anywhere — including an ancestor, forming a cycle). -/
inductive FsTree where
  | dir (name : String) (children : List FsTree)
  | file (name : String)
  | symlinkDir (name : String) (target : Path)

/-- The entry name of a node. -/
def FsTree.name : FsTree → String
  | .dir n _ => n
  | .file n => n
  | .symlinkDir n _ => n

/-- Find the child of a directory bearing a given name. -/
def findChild (n : String) : List FsTree → Option FsTree
  | [] => none
  | c :: cs => if c.name = n then some c else findChild n cs

/-- Resolve a path (relative to the node) to the node it denotes, without
following symlinks. -/
def FsTree.lookup : Path → FsTree → Option FsTree
  | [], t => some t
  | c :: rest, .dir _ cs =>
    match findChild c cs with
    | some t => FsTree.lookup rest t
    | none => none
  | _ :: _, _ => none

/-! ## TreeWalker -/

mutual
/-- Modelled from the spec: `TreeWalker.enumerate` — depth-first traversal
of the directory tree rooted at a node (whose own path is `self`), yielding
every directory (not plain files) encountered.  Symlinked directories are
reported as entries but not recursed into. -/
def FsTree.enumerateFrom : FsTree → Path → List Path
  | .file _, _ => []
  | .symlinkDir _ _, self => [self]
  | .dir _ cs, self => self :: enumChildren cs self

/-- Traverse each child of a directory at path `parent`, in order. -/
def enumChildren : List FsTree → Path → List Path
  | [], _ => []
  | t :: ts, parent => FsTree.enumerateFrom t (parent ++ [t.name]) ++ enumChildren ts parent
end

/-- Replace every symlink target in a tree by the empty path, leaving all
real structure intact.  Used to state that the walker never follows a
symlink: the traversal cannot depend on where symlinks point. -/
def FsTree.retarget : FsTree → FsTree
  | .file n => .file n
  | .symlinkDir n _ => .symlinkDir n []
  | .dir n cs => .dir n (retargetList cs)
where
  /-- Retarget every tree in a list. -/
  retargetList : List FsTree → List FsTree
    | [] => []
    | t :: ts => t.retarget :: retargetList ts

/-- Pairwise-distinct entry names. -/
def namesNodup : List String → Bool
  | [] => true
  | x :: xs => !(xs.contains x) && namesNodup xs

mutual
/-- A tree is well-named when the entries of every directory bear pairwise
distinct names, as real directory listings do. -/
def FsTree.wellNamed : FsTree → Bool
  | .file _ => true
  | .symlinkDir _ _ => true
  | .dir _ cs => namesNodup (cs.map FsTree.name) && wellNamedList cs

/-- Every tree in the list is well-named. -/
def wellNamedList : List FsTree → Bool
  | [] => true
  | t :: ts => t.wellNamed && wellNamedList ts
end

mutual
/-- The number of directory entries the walker must report below (and
including) a node: real directories plus symlinked directories. -/
def FsTree.nodeCount : FsTree → Nat
  | .file _ => 0
  | .symlinkDir _ _ => 1
  | .dir _ cs => 1 + nodeCountList cs

/-- Total directory-entry count of a list of trees. -/
def nodeCountList : List FsTree → Nat
  | [] => 0
  | t :: ts => t.nodeCount + nodeCountList ts
end

/-! ## Events and errors -/

/-- Semantic, user-visible event: fully-resolved absolute path and change
kind. -/
inductive Event where
  | created (path : Path)
  | modified (path : Path)
  | deleted (path : Path)
  | renamed (fromPath toPath : Path)
  | metadataChanged (path : Path)
  | stale (path : Path)
deriving DecidableEq, Repr

/-- Error taxonomy surfaced synchronously from `watch()`, plus the terminal
`closed` state of the scoped lifetime. -/
inductive WatchError where
  | pathNotFound
  | notADirectory
  | permissionDenied
  | watchLimitExceeded
  | closed
deriving DecidableEq, Repr

/-! ## WatchTable and native channel -/

/-- A canonicalized path currently under watch: path, native watch handle,
and the top-level root it belongs to. -/
structure WatchedPath where
  path : Path
  handle : Nat
  root : Path
deriving DecidableEq, Repr

/-- Modelled from the spec: the native notification primitive's channel
state — which handles are currently installed in the kernel, the next fresh
handle, and whether the channel is open. -/
structure NativeChannel where
  live : List Nat
  nextHandle : Nat
  isOpen : Bool
deriving DecidableEq, Repr

/-- Modelled from the spec: `WatchTable` — the set of `WatchedPath` entries
owned by one Notifier. -/
structure WatchTable where
  entries : List WatchedPath
deriving DecidableEq, Repr

/-- The paths currently present in the table. -/
def WatchTable.paths (wt : WatchTable) : List Path :=
  wt.entries.map WatchedPath.path

/-- `resolve(path) -> Option<NativeHandle>`: forward lookup. -/
def WatchTable.resolvePath (wt : WatchTable) (p : Path) : Option Nat :=
  (wt.entries.find? (fun e => e.path = p)).map WatchedPath.handle

/-- `resolve(handle) -> Option<Path>`: backward lookup. -/
def WatchTable.resolveHandle (wt : WatchTable) (h : Nat) : Option Path :=
  (wt.entries.find? (fun e => e.handle = h)).map WatchedPath.path

/-- Whether a path is present in the table. -/
def WatchTable.contains (wt : WatchTable) (p : Path) : Bool :=
  (wt.resolvePath p).isSome

/-! ## Notifier state -/

/-- Modelled from the spec: the `Notifier` session object — it owns the
`WatchTable`, the native channel, the `EventQueue` (an ordered FIFO list),
the set of registered roots, and the terminal `closed` flag of its scoped
lifetime. -/
structure Notifier where
  table : WatchTable
  chan : NativeChannel
  queue : List Event
  roots : List Path
  closed : Bool
deriving DecidableEq, Repr

/-- A freshly entered Notifier: empty table, open channel, empty queue. -/
def Notifier.enter : Notifier :=
  { table := ⟨[]⟩
    chan := { live := [], nextHandle := 0, isOpen := true }
    queue := []
    roots := []
    closed := false }

/-- `WatchTable.add`: installs a native watch and records the path↔handle
pair; re-adding an already-present path is a no-op returning the existing
handle. -/
def Notifier.installWatch (n : Notifier) (p root : Path) : Notifier :=
  if n.table.contains p then n
  else
    { n with
      table := ⟨n.table.entries ++ [⟨p, n.chan.nextHandle, root⟩]⟩
      chan := { n.chan with
                live := n.chan.live ++ [n.chan.nextHandle]
                nextHandle := n.chan.nextHandle + 1 } }

/-- `WatchTable.remove`: releases the native handle (idempotent — removing
an absent path is a no-op) and deletes the mapping. -/
def Notifier.removeWatch (n : Notifier) (p : Path) : Notifier :=
  match n.table.resolvePath p with
  | none => n
  | some h =>
    { n with
      table := ⟨n.table.entries.filter (fun e => e.path ≠ p)⟩
      chan := { n.chan with live := n.chan.live.filter (fun h2 => h2 ≠ h) } }

/-- Push a semantic event onto the EventQueue (FIFO: insertion order is
detection order). -/
def Notifier.emit (n : Notifier) (e : Event) : Notifier :=
  { n with queue := n.queue ++ [e] }

/-- Scoped-lifetime exit: releases every native watch handle in WatchTable
and closes the underlying notification channel; the Notifier enters the
terminal `closed` state.  The model applies it to an arbitrary state, so it
covers the normal, error and cancellation paths alike. -/
def Notifier.exit (n : Notifier) : Notifier :=
  { n with
    table := ⟨[]⟩
    chan := { n.chan with live := [], isOpen := false }
    closed := true }

/-- Outcome of one `get()` call, seen as a state transition. -/
inductive GetResult where
  | event (e : Event) (rest : Notifier)
  | closedErr
  | blocked
deriving DecidableEq, Repr

/-- `get()`: removes and returns the oldest queued event; once the scoped
lifetime has ended it fails with `Closed` rather than blocking; on an empty
queue of a live Notifier the call suspends (modelled as `blocked`). -/
def Notifier.get (n : Notifier) : GetResult :=
  if n.closed then .closedErr
  else
    match n.queue with
    | [] => .blocked
    | e :: rest => .event e { n with queue := rest }

/-- `get_nonblocking()`: returns immediately, `none` if the queue is
empty. -/
def Notifier.getNonblocking (n : Notifier) : Option (Event × Notifier) :=
  match n.queue with
  | [] => none
  | e :: rest => some (e, { n with queue := rest })

/-! ## watch() registration -/

/-- Install watches for a list of directories, top-down, attributing them
to a given root. -/
def Notifier.installAll (n : Notifier) (ps : List Path) (root : Path) : Notifier :=
  ps.foldl (fun acc p => acc.installWatch p root) n

/-- Record a newly registered root. -/
def Notifier.withRoot (n : Notifier) (r : Path) : Notifier :=
  { n with roots := n.roots ++ [r] }

/-- Modelled from the spec: `watch()` on a single path — canonicalizes it,
verifies it is an existing directory (failing with `PathNotFound` or
`NotADirectory` otherwise, leaving the Notifier untouched), and otherwise
registers a native watch for the root and every subdirectory discovered by
the TreeWalker; re-watching an already-watched path is a no-op for that
path. -/
def Notifier.watchPath (fs : FsTree) (n : Notifier) (p : Path) :
    Notifier × Option WatchError :=
  let cp := canonicalize p
  match FsTree.lookup cp fs with
  | none => (n, some .pathNotFound)
  | some (.file _) => (n, some .notADirectory)
  | some (.symlinkDir _ _) => (n, some .notADirectory)
  | some t@(.dir _ _) =>
    if n.table.contains cp then (n, none)
    else ((n.installAll (t.enumerateFrom cp) cp).withRoot cp, none)

/-- Modelled from the spec: `watch(paths)` — the public registration call.
The example caller passes a Python list, so the model takes the paths as an
ordered list; each is processed in turn and the first error is surfaced. -/
def Notifier.watch (fs : FsTree) (n : Notifier) (ps : List Path) :
    Notifier × Option WatchError :=
  match ps with
  | [] => (n, none)
  | p :: rest =>
    match n.watchPath fs p with
    | (n', none) => n'.watch fs rest
    | (n', some e) => (n', some e)

/-! ## EventTranslator -/

/-- Modelled from the spec: the translator's reaction to a raw `Created`
event on a directory `p` — install a watch via `WatchTable.add`, emit
`Created` for the directory, then emit `Created` for every pre-existing
child found by the immediate recursive scan and install watches for the
directories among them.  `found` is the scan result: each discovered path
paired with whether it is a directory.  `createStep` handles one scanned
child: emit its `Created` event and, when it is a directory, install its
watch. -/
def Notifier.createStep (root : Path) (acc : Notifier) (qd : Path × Bool) : Notifier :=
  let acc2 := acc.emit (.created qd.1)
  if qd.2 then acc2.installWatch qd.1 root else acc2

/-- The translator's reaction to a raw `Created` event on a directory `p`:
install the watch first, emit the directory's own `Created`, then process
each scanned child in order. -/
def Notifier.processCreatedDir (n : Notifier) (p root : Path)
    (found : List (Path × Bool)) : Notifier :=
  found.foldl (Notifier.createStep root) ((n.installWatch p root).emit (.created p))

/-- `Created` on a non-directory → emit `Created`; no watch action. -/
def Notifier.processCreatedFile (n : Notifier) (p : Path) : Notifier :=
  n.emit (.created p)

/-- `Modified` → emit `Modified`; no watch action. -/
def Notifier.processModified (n : Notifier) (p : Path) : Notifier :=
  n.emit (.modified p)

/-- Modelled from the spec: `Deleted` → `WatchTable.remove(path)`; emit
`Deleted`.  If the path still has watched descendants (deletion reported
before the children's own deletions propagate), recursively remove and emit
`Deleted` for each descendant still present in WatchTable, preventing
orphaned handles.  `deleteStep` removes one path's watch and emits its
`Deleted` event. -/
def Notifier.deleteStep (acc : Notifier) (q : Path) : Notifier :=
  (acc.removeWatch q).emit (.deleted q)

/-- The translator's reaction to a raw `Deleted` event on `p`: remove the
watch, emit `Deleted`, then remove and emit `Deleted` for every descendant
still present in WatchTable. -/
def Notifier.processDeleted (n : Notifier) (p : Path) : Notifier :=
  let n1 := (n.removeWatch p).emit (.deleted p)
  let descendants := n1.table.paths.filter (fun q => Path.isStrictlyUnder p q)
  descendants.foldl Notifier.deleteStep n1

/-- An entry of the short-lived move-association table: the OS move cookie,
the `MovedFrom` path, and the remaining ticks of the bounded association
window. -/
structure PendingMove where
  cookie : Nat
  fromPath : Path
  ttl : Nat
deriving DecidableEq, Repr

/-- Modelled from the spec: a `MovedFrom` raw event is stashed in the
association table under its cookie, with the bounded window `window`. -/
def Notifier.processMovedFrom (n : Notifier) (pend : List PendingMove)
    (cookie : Nat) (p : Path) (window : Nat) : Notifier × List PendingMove :=
  (n, pend ++ [⟨cookie, p, window⟩])

/-- Modelled from the spec: a `MovedTo` raw event with a matching pending
`MovedFrom` (same cookie) resolves to a single `Renamed{from,to}` event; an
unmatched `MovedTo` is treated as `Created`, re-walking (emitting `Created`
for pre-existing children, `found`) when it names a directory. -/
def Notifier.processMovedTo (n : Notifier) (pend : List PendingMove)
    (cookie : Nat) (q root : Path) (isDir : Bool)
    (found : List (Path × Bool)) : Notifier × List PendingMove :=
  match pend.find? (fun m => m.cookie = cookie) with
  | some m =>
    (n.emit (.renamed m.fromPath q), pend.filter (fun m2 => m2.cookie ≠ cookie))
  | none =>
    (if isDir then n.processCreatedDir q root found else n.processCreatedFile q,
     pend)

/-- Modelled from the spec: the handling of one expired `MovedFrom` entry —
the item left the watched tree, so it is treated as `Deleted`. -/
def Notifier.expireStep (acc : Notifier) (m : PendingMove) : Notifier :=
  acc.processDeleted m.fromPath

/-- Modelled from the spec: one tick of the bounded association window.  A
pending `MovedFrom` whose window has expired is treated as `Deleted` (the
item left the watched tree); the remaining entries age by one tick. -/
def Notifier.tickMoves (n : Notifier) (pend : List PendingMove) :
    Notifier × List PendingMove :=
  let expired := pend.filter (fun m => m.ttl = 0)
  let rest := (pend.filter (fun m => ¬m.ttl = 0)).map
    (fun m => { m with ttl := m.ttl - 1 })
  (expired.foldl Notifier.expireStep n, rest)

/-! ## EventQueue draining -/

/-- Drain up to `fuel` events by repeated `get()` calls, stopping when the
queue blocks or the Notifier is closed. -/
def Notifier.getAllFuel : Nat → Notifier → List Event
  | 0, _ => []
  | fuel + 1, n =>
    match n.get with
    | .event e rest => e :: rest.getAllFuel fuel
    | _ => []

/-- The sequence of events obtained by repeatedly calling `get()` until the
queue is exhausted. -/
def Notifier.getAll (n : Notifier) : List Event :=
  n.getAllFuel n.queue.length

/-! ## Whole-system model for event replay -/

/-- The actual directory-tree state under the watched root: the list of
present nodes, each path paired with whether it is a directory. -/
abbrev FsState := List (Path × Bool)

/-- The paths present in a tree state. -/
def FsState.paths (fs : FsState) : List Path :=
  fs.map Prod.fst

/-- The directories present in a tree state. -/
def FsState.dirs (fs : FsState) : List Path :=
  (fs.filter Prod.snd).map Prod.fst

/-- One filesystem mutation under the watched root: create a node (a
directory or a plain file) or delete a leaf node. -/
inductive Mutation where
  | create (p : Path) (isDir : Bool)
  | delete (p : Path)
deriving DecidableEq, Repr

/-- Apply a mutation to the actual tree state. -/
def applyMut (fs : FsState) : Mutation → FsState
  | .create p d => fs ++ [(p, d)]
  | .delete p => fs.filter (fun q => q.1 ≠ p)

/-- Apply a sequence of mutations. -/
def applyMuts (fs : FsState) (ms : List Mutation) : FsState :=
  ms.foldl applyMut fs

/-- Validity of one mutation: a created node must be new; a deleted node
must exist and be a leaf (the OS reports each unlink individually, so a
subtree disappears leaf-first). -/
def validMut (fs : FsState) : Mutation → Bool
  | .create p _ => p ∉ fs.paths
  | .delete p =>
    p ∈ fs.paths && fs.paths.all (fun q => Path.isStrictlyUnder p q = false)

/-- Validity of a mutation sequence from a given tree state. -/
def validSeq (fs : FsState) : List Mutation → Bool
  | [] => true
  | m :: ms => validMut fs m && validSeq (applyMut fs m) ms

/-- The Notifier's reaction to the raw notification produced by one
mutation: the translator routes it to the matching handler. -/
def stepNotifier (root : Path) (n : Notifier) : Mutation → Notifier
  | .create p d => if d then n.processCreatedDir p root [] else n.processCreatedFile p
  | .delete p => n.processDeleted p

/-- Run the Notifier over a whole mutation sequence. -/
def runNotifier (root : Path) (n : Notifier) (ms : List Mutation) : Notifier :=
  ms.foldl (stepNotifier root) n

/-- Replay one delivered event against a reconstructed set of paths. -/
def replayEvent (s : List Path) : Event → List Path
  | .created p => if p ∈ s then s else s ++ [p]
  | .deleted p => s.filter (fun q => q ≠ p)
  | _ => s

/-- Replay a delivered event sequence, reconstructing a set of paths. -/
def replay (es : List Event) (s : List Path) : List Path :=
  es.foldl replayEvent s

/-! ## Well-formedness of a Notifier -/

/-- The WatchTable/native-channel invariant: at most one `WatchedPath` per
canonical path, pairwise-distinct native handles all below the channel's
fresh-handle counter, and the kernel's live handles exactly the handles
recorded in the table (no orphaned or leaked native handle). -/
def Notifier.WellFormed (n : Notifier) : Prop :=
  n.table.paths.Nodup ∧
  (n.table.entries.map WatchedPath.handle).Nodup ∧
  (∀ h ∈ n.table.entries.map WatchedPath.handle, h < n.chan.nextHandle) ∧
  n.chan.live = n.table.entries.map WatchedPath.handle

/-! # Theorems -/

/-! ## Basic WatchTable and Notifier lemmas -/

theorem WatchTable.contains_iff (wt : WatchTable) (p : Path) :
    wt.contains p = true ↔ p ∈ wt.paths := by
  simp [WatchTable.contains, WatchTable.resolvePath, WatchTable.paths,
    List.find?_isSome, List.mem_map]

theorem WatchTable.resolvePath_eq_none (wt : WatchTable) (p : Path) :
    wt.resolvePath p = none ↔ p ∉ wt.paths := by
  simp [WatchTable.resolvePath, WatchTable.paths, List.find?_eq_none, List.mem_map]

theorem Notifier.installWatch_queue (n : Notifier) (p root : Path) :
    (n.installWatch p root).queue = n.queue := by
  unfold Notifier.installWatch
  split <;> rfl

theorem Notifier.installWatch_closed (n : Notifier) (p root : Path) :
    (n.installWatch p root).closed = n.closed := by
  unfold Notifier.installWatch
  split <;> rfl

theorem Notifier.installWatch_paths (n : Notifier) (p root : Path) :
    (n.installWatch p root).table.paths =
      if p ∈ n.table.paths then n.table.paths else n.table.paths ++ [p] := by
  unfold Notifier.installWatch
  by_cases h : p ∈ n.table.paths
  · rw [if_pos h]
    rw [if_pos ((WatchTable.contains_iff n.table p).mpr h)]
  · rw [if_neg h]
    have hc : ¬n.table.contains p = true := fun hc => h ((WatchTable.contains_iff n.table p).mp hc)
    rw [if_neg hc]
    simp [WatchTable.paths]

theorem Notifier.mem_installWatch_paths (n : Notifier) (p root a : Path) :
    a ∈ (n.installWatch p root).table.paths ↔ a ∈ n.table.paths ∨ a = p := by
  rw [Notifier.installWatch_paths]
  by_cases h : p ∈ n.table.paths
  · rw [if_pos h]
    exact ⟨Or.inl, fun x => x.elim id (fun e => e ▸ h)⟩
  · rw [if_neg h]
    simp

theorem Notifier.removeWatch_queue (n : Notifier) (p : Path) :
    (n.removeWatch p).queue = n.queue := by
  unfold Notifier.removeWatch
  split <;> rfl

theorem Notifier.removeWatch_closed (n : Notifier) (p : Path) :
    (n.removeWatch p).closed = n.closed := by
  unfold Notifier.removeWatch
  split <;> rfl

theorem map_path_filter (es : List WatchedPath) (p : Path) :
    (es.filter (fun e => e.path ≠ p)).map WatchedPath.path
      = (es.map WatchedPath.path).filter (fun q => q ≠ p) := by
  induction es with
  | nil => rfl
  | cons e es ih =>
    simp only [ne_eq, decide_not] at ih ⊢
    by_cases h : e.path = p <;> simp [List.filter_cons, h, ih]

theorem Notifier.removeWatch_paths (n : Notifier) (p : Path) :
    (n.removeWatch p).table.paths = n.table.paths.filter (fun q => q ≠ p) := by
  unfold Notifier.removeWatch
  cases hr : n.table.resolvePath p with
  | none =>
    have hnp : p ∉ n.table.paths := (WatchTable.resolvePath_eq_none n.table p).mp hr
    have : ∀ q ∈ n.table.paths, q ≠ p := fun q hq he => hnp (he ▸ hq)
    simp only []
    rw [eq_comm, List.filter_eq_self]
    intro a ha
    simpa using this a ha
  | some h =>
    simp only [WatchTable.paths]
    exact map_path_filter n.table.entries p

theorem Notifier.emit_queue (n : Notifier) (e : Event) :
    (n.emit e).queue = n.queue ++ [e] := rfl

theorem Notifier.emit_table (n : Notifier) (e : Event) :
    (n.emit e).table = n.table := rfl

theorem Notifier.emit_closed (n : Notifier) (e : Event) :
    (n.emit e).closed = n.closed := rfl

/-! ## EventTranslator lemmas -/

theorem Notifier.createStep_queue (root : Path) (acc : Notifier) (qd : Path × Bool) :
    (Notifier.createStep root acc qd).queue = acc.queue ++ [Event.created qd.1] := by
  unfold Notifier.createStep
  split
  · rw [Notifier.installWatch_queue]
    rfl
  · rfl

theorem Notifier.createStep_closed (root : Path) (acc : Notifier) (qd : Path × Bool) :
    (Notifier.createStep root acc qd).closed = acc.closed := by
  unfold Notifier.createStep
  split
  · rw [Notifier.installWatch_closed]
    rfl
  · rfl

theorem Notifier.createStep_paths_mono (root : Path) (acc : Notifier) (qd : Path × Bool)
    (a : Path) (h : a ∈ acc.table.paths) :
    a ∈ (Notifier.createStep root acc qd).table.paths := by
  unfold Notifier.createStep
  split
  · exact (Notifier.mem_installWatch_paths _ _ _ _).mpr (Or.inl h)
  · exact h

theorem foldl_createStep_queue (found : List (Path × Bool)) (root : Path) (acc : Notifier) :
    (found.foldl (Notifier.createStep root) acc).queue
      = acc.queue ++ found.map (fun qd => Event.created qd.1) := by
  induction found generalizing acc with
  | nil => simp
  | cons qd fd ih =>
    rw [List.foldl_cons, ih, Notifier.createStep_queue]
    simp

theorem foldl_createStep_closed (found : List (Path × Bool)) (root : Path) (acc : Notifier) :
    (found.foldl (Notifier.createStep root) acc).closed = acc.closed := by
  induction found generalizing acc with
  | nil => rfl
  | cons qd fd ih =>
    rw [List.foldl_cons, ih, Notifier.createStep_closed]

theorem foldl_createStep_paths_mono (found : List (Path × Bool)) (root : Path)
    (acc : Notifier) (a : Path) (h : a ∈ acc.table.paths) :
    a ∈ (found.foldl (Notifier.createStep root) acc).table.paths := by
  induction found generalizing acc with
  | nil => exact h
  | cons qd fd ih =>
    exact ih _ (Notifier.createStep_paths_mono root acc qd a h)

theorem Notifier.processCreatedDir_queue (n : Notifier) (p root : Path)
    (found : List (Path × Bool)) :
    (n.processCreatedDir p root found).queue
      = n.queue ++ Event.created p :: found.map (fun qd => Event.created qd.1) := by
  unfold Notifier.processCreatedDir
  rw [foldl_createStep_queue, Notifier.emit_queue, Notifier.installWatch_queue]
  simp

theorem Notifier.processCreatedDir_mem_self (n : Notifier) (p root : Path)
    (found : List (Path × Bool)) :
    p ∈ (n.processCreatedDir p root found).table.paths := by
  unfold Notifier.processCreatedDir
  apply foldl_createStep_paths_mono
  rw [Notifier.emit_table]
  exact (Notifier.mem_installWatch_paths _ _ _ _).mpr (Or.inr rfl)

theorem Notifier.processCreatedDir_closed (n : Notifier) (p root : Path)
    (found : List (Path × Bool)) :
    (n.processCreatedDir p root found).closed = n.closed := by
  unfold Notifier.processCreatedDir
  rw [foldl_createStep_closed, Notifier.emit_closed, Notifier.installWatch_closed]

theorem Notifier.processCreatedDir_nil_paths (n : Notifier) (p root : Path) :
    (n.processCreatedDir p root []).table.paths =
      if p ∈ n.table.paths then n.table.paths else n.table.paths ++ [p] := by
  unfold Notifier.processCreatedDir
  rw [List.foldl_nil, Notifier.emit_table, Notifier.installWatch_paths]

theorem Notifier.deleteStep_queue (acc : Notifier) (q : Path) :
    (Notifier.deleteStep acc q).queue = acc.queue ++ [Event.deleted q] := by
  unfold Notifier.deleteStep
  rw [Notifier.emit_queue, Notifier.removeWatch_queue]

theorem Notifier.deleteStep_closed (acc : Notifier) (q : Path) :
    (Notifier.deleteStep acc q).closed = acc.closed := by
  unfold Notifier.deleteStep
  rw [Notifier.emit_closed, Notifier.removeWatch_closed]

theorem Notifier.deleteStep_paths (acc : Notifier) (q : Path) :
    (Notifier.deleteStep acc q).table.paths = acc.table.paths.filter (fun x => x ≠ q) := by
  unfold Notifier.deleteStep
  rw [Notifier.emit_table, Notifier.removeWatch_paths]

theorem foldl_deleteStep_queue (ds : List Path) (acc : Notifier) :
    (ds.foldl Notifier.deleteStep acc).queue = acc.queue ++ ds.map Event.deleted := by
  induction ds generalizing acc with
  | nil => simp
  | cons d ds ih =>
    rw [List.foldl_cons, ih, Notifier.deleteStep_queue]
    simp

theorem foldl_deleteStep_closed (ds : List Path) (acc : Notifier) :
    (ds.foldl Notifier.deleteStep acc).closed = acc.closed := by
  induction ds generalizing acc with
  | nil => rfl
  | cons d ds ih =>
    rw [List.foldl_cons, ih, Notifier.deleteStep_closed]

theorem mem_foldl_deleteStep_paths (ds : List Path) (acc : Notifier) (q : Path)
    (h : q ∈ (ds.foldl Notifier.deleteStep acc).table.paths) :
    q ∈ acc.table.paths ∧ q ∉ ds := by
  induction ds generalizing acc with
  | nil => exact ⟨h, by simp⟩
  | cons d ds ih =>
    rw [List.foldl_cons] at h
    obtain ⟨h1, h2⟩ := ih _ h
    rw [Notifier.deleteStep_paths, List.mem_filter] at h1
    refine ⟨h1.1, ?_⟩
    simp only [List.mem_cons, not_or]
    exact ⟨by simpa using h1.2, h2⟩

theorem Notifier.processDeleted_queue (n : Notifier) (p : Path) :
    (n.processDeleted p).queue
      = n.queue ++ Event.deleted p ::
        (((n.removeWatch p).table.paths.filter
          (fun q => Path.isStrictlyUnder p q)).map Event.deleted) := by
  unfold Notifier.processDeleted
  rw [foldl_deleteStep_queue, Notifier.emit_queue, Notifier.removeWatch_queue,
    Notifier.emit_table]
  simp

theorem Notifier.processDeleted_closed (n : Notifier) (p : Path) :
    (n.processDeleted p).closed = n.closed := by
  unfold Notifier.processDeleted
  rw [foldl_deleteStep_closed, Notifier.emit_closed, Notifier.removeWatch_closed]

/-! ## Well-formedness preservation -/

theorem map_handle_filter (es : List WatchedPath) (p : Path) (h : Nat)
    (hiff : ∀ e ∈ es, e.path = p ↔ e.handle = h) :
    (es.filter (fun e => e.path ≠ p)).map WatchedPath.handle
      = (es.map WatchedPath.handle).filter (fun x => x ≠ h) := by
  induction es with
  | nil => rfl
  | cons e es ih =>
    have he := hiff e (by simp)
    have hrest : ∀ x ∈ es, x.path = p ↔ x.handle = h := fun x hx => hiff x (by simp [hx])
    simp only [ne_eq, decide_not] at ih ⊢
    by_cases hp : e.path = p
    · have hh : e.handle = h := he.mp hp
      simp [List.filter_cons, hp, hh, ih hrest]
    · have hh : ¬e.handle = h := fun hh => hp (he.mpr hh)
      simp [List.filter_cons, hp, hh, ih hrest]

theorem Notifier.installWatch_WF (n : Notifier) (p root : Path) (hwf : n.WellFormed) :
    (n.installWatch p root).WellFormed := by
  unfold Notifier.installWatch
  by_cases hc : n.table.contains p = true
  · rw [if_pos hc]
    exact hwf
  · rw [if_neg hc]
    obtain ⟨ndp, ndh, bound, live⟩ := hwf
    have hp : p ∉ n.table.paths := fun h => hc ((WatchTable.contains_iff n.table p).mpr h)
    refine ⟨?_, ?_, ?_, ?_⟩
    · show (WatchTable.paths ⟨n.table.entries ++ [⟨p, n.chan.nextHandle, root⟩]⟩).Nodup
      simp only [WatchTable.paths, List.map_append, List.map_cons, List.map_nil]
      rw [List.nodup_append]
      refine ⟨ndp, List.nodup_singleton p, ?_⟩
      intro a ha hb
      rw [List.mem_singleton] at hb
      exact hp (hb ▸ ha)
    · show (List.map WatchedPath.handle (n.table.entries ++ [⟨p, n.chan.nextHandle, root⟩])).Nodup
      simp only [List.map_append, List.map_cons, List.map_nil]
      rw [List.nodup_append]
      refine ⟨ndh, List.nodup_singleton _, ?_⟩
      intro a ha hb
      rw [List.mem_singleton] at hb
      exact absurd (hb ▸ bound a ha) (lt_irrefl _)
    · intro h hh
      simp only [List.map_append, List.map_cons, List.map_nil, List.mem_append,
        List.mem_singleton] at hh
      rcases hh with hh | rfl
      · exact Nat.lt_trans (bound h hh) (Nat.lt_succ_self _)
      · exact Nat.lt_succ_self _
    · show n.chan.live ++ [n.chan.nextHandle]
        = List.map WatchedPath.handle (n.table.entries ++ [⟨p, n.chan.nextHandle, root⟩])
      simp only [List.map_append, List.map_cons, List.map_nil]
      rw [live]

theorem Notifier.removeWatch_WF (n : Notifier) (p : Path) (hwf : n.WellFormed) :
    (n.removeWatch p).WellFormed := by
  unfold Notifier.removeWatch
  cases hr : n.table.resolvePath p with
  | none => exact hwf
  | some h =>
    obtain ⟨ndp, ndh, bound, live⟩ := hwf
    obtain ⟨e0, hfind, hh⟩ : ∃ e0, n.table.entries.find? (fun e => e.path = p) = some e0
        ∧ e0.handle = h := by
      unfold WatchTable.resolvePath at hr
      cases hf : n.table.entries.find? (fun e => e.path = p) with
      | none => rw [hf] at hr; simp at hr
      | some e0 => rw [hf] at hr; simp at hr; exact ⟨e0, rfl, hr⟩
    have he0mem : e0 ∈ n.table.entries := List.mem_of_find?_eq_some hfind
    have he0p : e0.path = p := by simpa using List.find?_some hfind
    have hiff : ∀ e ∈ n.table.entries, e.path = p ↔ e.handle = h := by
      intro e hmem
      constructor
      · intro hep
        have : e = e0 := List.inj_on_of_nodup_map ndp hmem he0mem (by rw [hep, he0p])
        rw [this, hh]
      · intro heh
        have : e = e0 := List.inj_on_of_nodup_map ndh hmem he0mem (by rw [heh, hh])
        rw [this, he0p]
    have hmf := map_handle_filter n.table.entries p h hiff
    refine ⟨?_, ?_, ?_, ?_⟩
    · show (WatchTable.paths ⟨n.table.entries.filter (fun e => e.path ≠ p)⟩).Nodup
      simp only [WatchTable.paths]
      rw [map_path_filter]
      exact ndp.filter _
    · show (List.map WatchedPath.handle (n.table.entries.filter (fun e => e.path ≠ p))).Nodup
      rw [hmf]
      exact ndh.filter _
    · intro h2 hh2
      rw [hmf] at hh2
      exact bound h2 (List.mem_of_mem_filter hh2)
    · show n.chan.live.filter (fun h2 => h2 ≠ h)
        = List.map WatchedPath.handle (n.table.entries.filter (fun e => e.path ≠ p))
      rw [hmf, live]

theorem Notifier.emit_WF (n : Notifier) (e : Event) (hwf : n.WellFormed) :
    (n.emit e).WellFormed := hwf

theorem Notifier.createStep_WF (root : Path) (acc : Notifier) (qd : Path × Bool)
    (hwf : acc.WellFormed) : (Notifier.createStep root acc qd).WellFormed := by
  unfold Notifier.createStep
  split
  · exact Notifier.installWatch_WF _ _ _ (Notifier.emit_WF _ _ hwf)
  · exact Notifier.emit_WF _ _ hwf

theorem foldl_createStep_WF (found : List (Path × Bool)) (root : Path) (acc : Notifier)
    (hwf : acc.WellFormed) : (found.foldl (Notifier.createStep root) acc).WellFormed := by
  induction found generalizing acc with
  | nil => exact hwf
  | cons qd fd ih => exact ih _ (Notifier.createStep_WF root acc qd hwf)

theorem Notifier.processCreatedDir_WF (n : Notifier) (p root : Path)
    (found : List (Path × Bool)) (hwf : n.WellFormed) :
    (n.processCreatedDir p root found).WellFormed := by
  unfold Notifier.processCreatedDir
  exact foldl_createStep_WF _ _ _ (Notifier.emit_WF _ _ (Notifier.installWatch_WF _ _ _ hwf))

theorem Notifier.deleteStep_WF (acc : Notifier) (q : Path) (hwf : acc.WellFormed) :
    (Notifier.deleteStep acc q).WellFormed :=
  Notifier.emit_WF _ _ (Notifier.removeWatch_WF _ _ hwf)

theorem foldl_deleteStep_WF (ds : List Path) (acc : Notifier) (hwf : acc.WellFormed) :
    (ds.foldl Notifier.deleteStep acc).WellFormed := by
  induction ds generalizing acc with
  | nil => exact hwf
  | cons d ds ih => exact ih _ (Notifier.deleteStep_WF acc d hwf)

theorem Notifier.processDeleted_WF (n : Notifier) (p : Path) (hwf : n.WellFormed) :
    (n.processDeleted p).WellFormed := by
  unfold Notifier.processDeleted
  exact foldl_deleteStep_WF _ _ (Notifier.emit_WF _ _ (Notifier.removeWatch_WF _ _ hwf))

theorem Notifier.exit_WF (n : Notifier) : n.exit.WellFormed := by
  refine ⟨?_, ?_, ?_, ?_⟩ <;> simp [Notifier.exit, WatchTable.paths]

theorem Notifier.installAll_WF (ps : List Path) (n : Notifier) (root : Path)
    (hwf : n.WellFormed) : (n.installAll ps root).WellFormed := by
  unfold Notifier.installAll
  induction ps generalizing n with
  | nil => exact hwf
  | cons p ps ih => exact ih _ (Notifier.installWatch_WF _ _ _ hwf)

theorem Notifier.watchPath_WF (fs : FsTree) (n : Notifier) (p : Path)
    (hwf : n.WellFormed) : (n.watchPath fs p).1.WellFormed := by
  unfold Notifier.watchPath
  dsimp only
  split
  · exact hwf
  · exact hwf
  · exact hwf
  · split
    · exact hwf
    · exact Notifier.installAll_WF _ _ _ hwf

theorem Notifier.watch_WF (fs : FsTree) (n : Notifier) (ps : List Path)
    (hwf : n.WellFormed) : (n.watch fs ps).1.WellFormed := by
  induction ps generalizing n with
  | nil => exact hwf
  | cons p ps ih =>
    unfold Notifier.watch
    cases hwp : n.watchPath fs p with
    | mk n' err =>
      have hn' : n'.WellFormed := by
        have := Notifier.watchPath_WF fs n p hwf
        rw [hwp] at this
        exact this
      cases err with
      | none => exact ih n' hn'
      | some e => exact hn'

/-! ## Queue, registration and path-order lemmas -/

theorem foldl_emit_queue (es : List Event) (n : Notifier) :
    (es.foldl Notifier.emit n).queue = n.queue ++ es := by
  induction es generalizing n with
  | nil => simp
  | cons e es ih =>
    rw [List.foldl_cons, ih, Notifier.emit_queue]
    simp

theorem foldl_emit_closed (es : List Event) (n : Notifier) :
    (es.foldl Notifier.emit n).closed = n.closed := by
  induction es generalizing n with
  | nil => rfl
  | cons e es ih =>
    rw [List.foldl_cons, ih, Notifier.emit_closed]

theorem getAllFuel_eq (k : Nat) :
    ∀ n : Notifier, n.closed = false → n.queue.length ≤ k → n.getAllFuel k = n.queue := by
  induction k with
  | zero =>
    intro n hc hl
    have : n.queue = [] := List.length_eq_zero.mp (Nat.le_zero.mp hl)
    rw [this]
    rfl
  | succ k ih =>
    intro n hc hl
    cases hq : n.queue with
    | nil =>
      simp [Notifier.getAllFuel, Notifier.get, hc, hq]
    | cons e rest =>
      have hget : n.get = GetResult.event e { n with queue := rest } := by
        simp [Notifier.get, hc, hq]
      have hlen : rest.length ≤ k := by
        rw [hq] at hl
        exact Nat.le_of_succ_le_succ hl
      simp only [Notifier.getAllFuel, hget]
      rw [ih { n with queue := rest } hc hlen]

theorem Notifier.getAll_eq (n : Notifier) (h : n.closed = false) : n.getAll = n.queue :=
  getAllFuel_eq n.queue.length n h (Nat.le_refl _)

theorem Notifier.mem_installAll_paths (ps : List Path) (n : Notifier) (root a : Path) :
    a ∈ (n.installAll ps root).table.paths ↔ a ∈ n.table.paths ∨ a ∈ ps := by
  unfold Notifier.installAll
  induction ps generalizing n with
  | nil => simp
  | cons p ps ih =>
    rw [List.foldl_cons, ih]
    rw [Notifier.mem_installWatch_paths]
    simp only [List.mem_cons]
    tauto

theorem self_mem_enumerateFrom_dir (nm : String) (cs : List FsTree) (self : Path) :
    self ∈ (FsTree.dir nm cs).enumerateFrom self := by
  rw [FsTree.enumerateFrom]
  exact List.mem_cons_self _ _

theorem isStrictlyUnder_iff (p q : Path) :
    Path.isStrictlyUnder p q = true ↔ (Path.isUnder p q = true ∧ p ≠ q) := by
  simp [Path.isStrictlyUnder, Path.isUnder]

/-! ## Claim C2: scoped exit releases everything and closes the stream -/

/-- C2.  Whenever a Notifier's scoped lifetime exits — the model's `exit`
applies to an arbitrary reachable state, covering the normal, error and
cancellation paths alike — every native watch handle is released, the
notification channel is closed, the WatchTable is emptied, and any `get()`
call on the exited Notifier (even after further producer activity) resolves
with the `Closed` error rather than blocking. -/
theorem c2_exit_releases_and_closes (n : Notifier) :
    n.exit.chan.live = [] ∧
    n.exit.chan.isOpen = false ∧
    n.exit.table.entries = [] ∧
    n.exit.get = GetResult.closedErr ∧
    ∀ es : List Event, (es.foldl Notifier.emit n.exit).get = GetResult.closedErr := by
  refine ⟨rfl, rfl, rfl, rfl, ?_⟩
  intro es
  have hc : (es.foldl Notifier.emit n.exit).closed = true := by
    rw [foldl_emit_closed]
    rfl
  simp [Notifier.get, hc]

/-! ## Claim C3: FIFO delivery, directory's Created before its children -/

/-- C3.  Events are delivered by repeated `get()` calls in exactly the
order the underlying notifications were observed (the queue is FIFO), and
when the translator processes a newly created directory it installs the
directory's watch and enqueues the directory's own `Created` event strictly
before any event concerning the children found inside it. -/
theorem c3_fifo_and_dir_before_children (n : Notifier) (h : n.closed = false) :
    (∀ es : List Event, (es.foldl Notifier.emit n).getAll = n.queue ++ es) ∧
    (∀ p root found,
      (n.processCreatedDir p root found).queue
        = n.queue ++ Event.created p :: found.map (fun qd => Event.created qd.1) ∧
      (n.processCreatedDir p root found).table.contains p = true) := by
  constructor
  · intro es
    rw [Notifier.getAll_eq _ (by rw [foldl_emit_closed]; exact h)]
    exact foldl_emit_queue es n
  · intro p root found
    refine ⟨Notifier.processCreatedDir_queue n p root found, ?_⟩
    exact (WatchTable.contains_iff _ _).mpr (Notifier.processCreatedDir_mem_self n p root found)

/-- Witness for C3 at a concrete Notifier: an emitted event is delivered
after the already queued ones, and a directory creation enqueues the
directory's `Created` first. -/
theorem c3_witness :
    (([Event.modified ["f"]].foldl Notifier.emit Notifier.enter).getAll
      = Notifier.enter.queue ++ [Event.modified ["f"]]) ∧
    ((Notifier.enter.processCreatedDir ["d"] ["d"] [(["d", "c"], true)]).queue
       = Notifier.enter.queue ++ Event.created ["d"] ::
           [(["d", "c"], true)].map (fun qd => Event.created qd.1) ∧
     (Notifier.enter.processCreatedDir ["d"] ["d"] [(["d", "c"], true)]).table.contains ["d"]
       = true) :=
  ⟨(c3_fifo_and_dir_before_children Notifier.enter rfl).1 [Event.modified ["f"]],
   (c3_fifo_and_dir_before_children Notifier.enter rfl).2 ["d"] ["d"] [(["d", "c"], true)]⟩

/-! ## Claim C4: deleting a watched subtree -/

/-- C4.  Processing the deletion of a watched path `p` emits a `Deleted`
event for `p` and for every descendant previously present in WatchTable,
removes every entry of that subtree from the table, and preserves the
no-orphaned-handles invariant. -/
theorem c4_delete_subtree (n : Notifier) (p : Path) (hwf : n.WellFormed) :
    (∀ e ∈ n.table.entries, Path.isUnder p e.path = true →
      Event.deleted e.path ∈ (n.processDeleted p).queue) ∧
    (∀ q ∈ (n.processDeleted p).table.paths, Path.isUnder p q = false) ∧
    (n.processDeleted p).WellFormed := by
  refine ⟨?_, ?_, Notifier.processDeleted_WF n p hwf⟩
  · intro e he hU
    rw [Notifier.processDeleted_queue]
    rw [List.mem_append, List.mem_cons]
    by_cases hp : e.path = p
    · exact Or.inr (Or.inl (by rw [hp]))
    · refine Or.inr (Or.inr ?_)
      rw [List.mem_map]
      refine ⟨e.path, ?_, rfl⟩
      rw [Notifier.removeWatch_paths, List.mem_filter, List.mem_filter]
      have hmem : e.path ∈ n.table.paths := List.mem_map_of_mem WatchedPath.path he
      refine ⟨⟨hmem, by simpa using hp⟩, ?_⟩
      exact (isStrictlyUnder_iff p e.path).mpr ⟨hU, fun hpe => hp hpe.symm⟩
  · intro q hq
    unfold Notifier.processDeleted at hq
    obtain ⟨h1, h2⟩ := mem_foldl_deleteStep_paths _ _ _ hq
    rw [Notifier.emit_table, Notifier.removeWatch_paths, List.mem_filter] at h1
    cases hU : Path.isUnder p q with
    | false => rfl
    | true =>
      exfalso
      apply h2
      rw [List.mem_filter]
      refine ⟨?_, ?_⟩
      · rw [Notifier.emit_table, Notifier.removeWatch_paths, List.mem_filter]
        exact h1
      · have hne : q ≠ p := by simpa using h1.2
        exact (isStrictlyUnder_iff p q).mpr ⟨hU, fun hpq => hne hpq.symm⟩

/-- Witness for C4: deleting the watched directory `d` on a Notifier that
watches `d` and `d/c` emits `Deleted` for the descendant `d/c` and leaves a
well-formed table. -/
theorem c4_witness :
    Event.deleted ["d", "c"]
      ∈ (((Notifier.enter.installWatch ["d"] ["d"]).installWatch ["d", "c"] ["d"]).processDeleted
          ["d"]).queue ∧
    (((Notifier.enter.installWatch ["d"] ["d"]).installWatch ["d", "c"] ["d"]).processDeleted
        ["d"]).WellFormed :=
  ⟨(c4_delete_subtree ((Notifier.enter.installWatch ["d"] ["d"]).installWatch ["d", "c"] ["d"])
      ["d"] (by exact ⟨by decide, by decide, by decide, by decide⟩)).1
      ⟨["d", "c"], 1, ["d"]⟩ (by decide) (by decide),
   (c4_delete_subtree ((Notifier.enter.installWatch ["d"] ["d"]).installWatch ["d", "c"] ["d"])
      ["d"] (by exact ⟨by decide, by decide, by decide, by decide⟩)).2.2⟩

/-! ## Claim C6: watch() failures are synchronous and register nothing -/

/-- C6.  `watch()` on a path whose canonical form does not exist fails with
`PathNotFound`; on a path that exists but is not a directory (a plain file,
or a symlink) it fails with `NotADirectory`; in each failure case the
Notifier — its WatchTable included — is returned unchanged, so no watch is
registered for that path. -/
theorem c6_watch_errors (fs : FsTree) (n : Notifier) (p : Path) :
    (FsTree.lookup (canonicalize p) fs = none →
      n.watchPath fs p = (n, some WatchError.pathNotFound)) ∧
    (∀ nm, FsTree.lookup (canonicalize p) fs = some (FsTree.file nm) →
      n.watchPath fs p = (n, some WatchError.notADirectory)) ∧
    (∀ nm tg, FsTree.lookup (canonicalize p) fs = some (FsTree.symlinkDir nm tg) →
      n.watchPath fs p = (n, some WatchError.notADirectory)) := by
  refine ⟨?_, ?_, ?_⟩
  · intro h
    simp [Notifier.watchPath, h]
  · intro nm h
    simp [Notifier.watchPath, h]
  · intro nm tg h
    simp [Notifier.watchPath, h]

/-- Witness for C6: a missing path yields `PathNotFound` and a file path
yields `NotADirectory`, both leaving the fresh Notifier untouched. -/
theorem c6_witness :
    Notifier.enter.watchPath (FsTree.dir "r" [FsTree.file "f"]) ["x"]
      = (Notifier.enter, some WatchError.pathNotFound) ∧
    Notifier.enter.watchPath (FsTree.dir "r" [FsTree.file "f"]) ["f"]
      = (Notifier.enter, some WatchError.notADirectory) :=
  ⟨(c6_watch_errors (FsTree.dir "r" [FsTree.file "f"]) Notifier.enter ["x"]).1 rfl,
   (c6_watch_errors (FsTree.dir "r" [FsTree.file "f"]) Notifier.enter ["f"]).2.1 "f" rfl⟩

/-! ## Claims C7, C8, C10: registration behaviour and table invariants -/

theorem Notifier.watchPath_noop_of_contains (fs : FsTree) (n : Notifier) (p : Path)
    (h : n.table.contains (canonicalize p) = true) : (n.watchPath fs p).1 = n := by
  unfold Notifier.watchPath
  dsimp only
  split
  · rfl
  · rfl
  · rfl
  · split
    · rfl
    · exact absurd h (by assumption)

theorem Notifier.watchPath_registers (fs : FsTree) (n : Notifier) (p : Path)
    (nm : String) (cs : List FsTree)
    (hlook : FsTree.lookup (canonicalize p) fs = some (FsTree.dir nm cs))
    (hnot : n.table.contains (canonicalize p) = false) :
    n.watchPath fs p =
      ((n.installAll ((FsTree.dir nm cs).enumerateFrom (canonicalize p))
        (canonicalize p)).withRoot (canonicalize p), none) := by
  simp [Notifier.watchPath, hlook, hnot]

theorem Notifier.installAll_withRoot_contains (n : Notifier) (nm : String)
    (cs : List FsTree) (cp : Path) :
    ((n.installAll ((FsTree.dir nm cs).enumerateFrom cp) cp).withRoot cp).table.contains cp
      = true := by
  rw [WatchTable.contains_iff]
  show cp ∈ (n.installAll ((FsTree.dir nm cs).enumerateFrom cp) cp).table.paths
  exact (Notifier.mem_installAll_paths _ _ _ _).mpr
    (Or.inr (self_mem_enumerateFrom_dir nm cs cp))

/-- C7.  `watch()` is idempotent per path: on a path already watched by the
Notifier the call is a no-op for that path (WatchTable, native watches and
the whole Notifier state are unchanged), and in general processing the same
path twice in a row leaves exactly the state of the first call. -/
theorem c7_watch_idempotent (fs : FsTree) (n : Notifier) (p : Path) :
    (n.table.contains (canonicalize p) = true → (n.watchPath fs p).1 = n) ∧
    ((n.watchPath fs p).1.watchPath fs p).1 = (n.watchPath fs p).1 := by
  refine ⟨Notifier.watchPath_noop_of_contains fs n p, ?_⟩
  cases hl : FsTree.lookup (canonicalize p) fs with
  | none => simp [Notifier.watchPath, hl]
  | some t =>
    cases t with
    | file nm => simp [Notifier.watchPath, hl]
    | symlinkDir nm tg => simp [Notifier.watchPath, hl]
    | dir nm cs =>
      by_cases hc : n.table.contains (canonicalize p) = true
      · simp [Notifier.watchPath, hl, hc]
      · have hnot : n.table.contains (canonicalize p) = false := by
          simpa using hc
        rw [Notifier.watchPath_registers fs n p nm cs hl hnot]
        exact Notifier.watchPath_noop_of_contains fs _ p
          (Notifier.installAll_withRoot_contains n nm cs (canonicalize p))

/-- Witness for C7: re-watching the already watched directory `d` leaves
the Notifier unchanged, and registering a fresh directory twice equals
registering it once. -/
theorem c7_witness :
    ((Notifier.enter.installWatch ["d"] ["d"]).table.contains (canonicalize ["d"]) = true ∧
      ((Notifier.enter.installWatch ["d"] ["d"]).watchPath (FsTree.dir "r" [FsTree.dir "d" []])
        ["d"]).1 = Notifier.enter.installWatch ["d"] ["d"]) ∧
    ((Notifier.enter.watchPath (FsTree.dir "r" [FsTree.dir "d" []]) ["d"]).1.watchPath
        (FsTree.dir "r" [FsTree.dir "d" []]) ["d"]).1
      = (Notifier.enter.watchPath (FsTree.dir "r" [FsTree.dir "d" []]) ["d"]).1 :=
  ⟨⟨by decide,
    (c7_watch_idempotent (FsTree.dir "r" [FsTree.dir "d" []])
      (Notifier.enter.installWatch ["d"] ["d"]) ["d"]).1 (by decide)⟩,
   (c7_watch_idempotent (FsTree.dir "r" [FsTree.dir "d" []]) Notifier.enter ["d"]).2⟩

/-- C8.  Every modelled operation preserves the WatchTable invariant — at
most one `WatchedPath` per canonical path, and no native handle outliving
or escaping the table — and `remove` releases the removed entry's native
handle while removing an absent path is a no-op. -/
theorem c8_invariants (n : Notifier) (hwf : n.WellFormed) :
    (∀ p root, (n.installWatch p root).WellFormed) ∧
    (∀ p, (n.removeWatch p).WellFormed) ∧
    (∀ e, (n.emit e).WellFormed) ∧
    (∀ p root found, (n.processCreatedDir p root found).WellFormed) ∧
    (∀ p, (n.processDeleted p).WellFormed) ∧
    n.exit.WellFormed ∧
    (∀ fs ps, (n.watch fs ps).1.WellFormed) ∧
    (∀ p h, n.table.resolvePath p = some h → h ∉ (n.removeWatch p).chan.live) ∧
    (∀ p, n.table.resolvePath p = none → n.removeWatch p = n) := by
  refine ⟨fun p root => Notifier.installWatch_WF n p root hwf,
    fun p => Notifier.removeWatch_WF n p hwf,
    fun e => Notifier.emit_WF n e hwf,
    fun p root found => Notifier.processCreatedDir_WF n p root found hwf,
    fun p => Notifier.processDeleted_WF n p hwf,
    Notifier.exit_WF n,
    fun fs ps => Notifier.watch_WF fs n ps hwf,
    ?_, ?_⟩
  · intro p h hr
    unfold Notifier.removeWatch
    rw [hr]
    intro hmem
    simp at hmem
  · intro p hr
    unfold Notifier.removeWatch
    rw [hr]

/-- Witness for C8: on a concrete well-formed Notifier the invariant is
preserved by an install, the installed handle is released by removal, and
removing an absent path is a no-op. -/
theorem c8_witness :
    ((Notifier.enter.installWatch ["d"] ["d"]).installWatch ["d", "c"] ["d"]).WellFormed ∧
    0 ∉ ((Notifier.enter.installWatch ["d"] ["d"]).removeWatch ["d"]).chan.live ∧
    Notifier.enter.removeWatch ["x"] = Notifier.enter :=
  ⟨(c8_invariants (Notifier.enter.installWatch ["d"] ["d"])
      (by exact ⟨by decide, by decide, by decide, by decide⟩)).1 ["d", "c"] ["d"],
   (c8_invariants (Notifier.enter.installWatch ["d"] ["d"])
      (by exact ⟨by decide, by decide, by decide, by decide⟩)).2.2.2.2.2.2.2.1 ["d"] 0 rfl,
   (c8_invariants Notifier.enter
      (by exact ⟨by decide, by decide, by decide, by decide⟩)).2.2.2.2.2.2.2.2 ["x"] rfl⟩

/-- C10.  `watch()` takes an ordered list of paths; called with a
single-element list naming an existing directory it succeeds and registers
that directory as a root (the root becomes watched and is recorded in the
Notifier's root set). -/
theorem c10_watch_list (fs : FsTree) (n : Notifier) (d : Path) (nm : String)
    (cs : List FsTree)
    (hlook : FsTree.lookup (canonicalize d) fs = some (FsTree.dir nm cs))
    (hnot : n.table.contains (canonicalize d) = false) :
    (n.watch fs [d]).2 = none ∧
    (n.watch fs [d]).1.table.contains (canonicalize d) = true ∧
    canonicalize d ∈ (n.watch fs [d]).1.roots := by
  have hred : n.watch fs [d]
      = ((n.installAll ((FsTree.dir nm cs).enumerateFrom (canonicalize d))
          (canonicalize d)).withRoot (canonicalize d), none) := by
    unfold Notifier.watch
    rw [Notifier.watchPath_registers fs n d nm cs hlook hnot]
    rfl
  rw [hred]
  refine ⟨rfl, Notifier.installAll_withRoot_contains n nm cs (canonicalize d), ?_⟩
  show canonicalize d ∈ _ ++ [canonicalize d]
  simp

/-- Witness for C10: watching the single-element list containing the
existing directory `w` succeeds, watches it and records it as a root. -/
theorem c10_witness :
    (Notifier.enter.watch (FsTree.dir "r" [FsTree.dir "w" []]) [["w"]]).2 = none ∧
    (Notifier.enter.watch (FsTree.dir "r" [FsTree.dir "w" []])
      [["w"]]).1.table.contains (canonicalize ["w"]) = true ∧
    canonicalize ["w"] ∈ (Notifier.enter.watch (FsTree.dir "r" [FsTree.dir "w" []])
      [["w"]]).1.roots :=
  c10_watch_list (FsTree.dir "r" [FsTree.dir "w" []]) Notifier.enter ["w"] "w" [] rfl rfl

/-! ## Claim C9: TreeWalker termination and symlink safety -/

theorem FsTree.retarget_name (t : FsTree) : t.retarget.name = t.name := by
  cases t <;> rfl

mutual
theorem FsTree.enumerateFrom_retarget : ∀ (t : FsTree) (self : Path),
    FsTree.enumerateFrom t.retarget self = FsTree.enumerateFrom t self
  | .file _, _ => rfl
  | .symlinkDir _ _, _ => rfl
  | .dir nm cs, self => by
    simp only [FsTree.retarget, FsTree.enumerateFrom]
    rw [enumChildren_retarget cs self]

theorem enumChildren_retarget : ∀ (cs : List FsTree) (parent : Path),
    enumChildren (FsTree.retarget.retargetList cs) parent = enumChildren cs parent
  | [], _ => rfl
  | t :: ts, parent => by
    simp only [FsTree.retarget.retargetList, enumChildren]
    rw [FsTree.retarget_name, FsTree.enumerateFrom_retarget t, enumChildren_retarget ts]
end

mutual
theorem FsTree.length_enumerateFrom : ∀ (t : FsTree) (self : Path),
    (FsTree.enumerateFrom t self).length = t.nodeCount
  | .file _, _ => rfl
  | .symlinkDir _ _, _ => rfl
  | .dir nm cs, self => by
    simp only [FsTree.enumerateFrom, FsTree.nodeCount, List.length_cons]
    rw [length_enumChildren cs self]
    omega

theorem length_enumChildren : ∀ (cs : List FsTree) (parent : Path),
    (enumChildren cs parent).length = nodeCountList cs
  | [], _ => rfl
  | t :: ts, parent => by
    simp only [enumChildren, nodeCountList, List.length_append]
    rw [FsTree.length_enumerateFrom t, length_enumChildren ts]
end

mutual
theorem FsTree.mem_enumerateFrom : ∀ (t : FsTree) (self q : Path),
    q ∈ FsTree.enumerateFrom t self → ∃ r, q = self ++ r
  | .file _, self, q => by
    intro h
    simp [FsTree.enumerateFrom] at h
  | .symlinkDir nm tg, self, q => by
    intro h
    simp [FsTree.enumerateFrom] at h
    exact ⟨[], by simp [h]⟩
  | .dir nm cs, self, q => by
    intro h
    simp only [FsTree.enumerateFrom, List.mem_cons] at h
    rcases h with rfl | h
    · exact ⟨[], by simp⟩
    · obtain ⟨t, r, ht, rfl⟩ := mem_enumChildren cs self q h
      exact ⟨t.name :: r, rfl⟩

theorem mem_enumChildren : ∀ (cs : List FsTree) (parent q : Path),
    q ∈ enumChildren cs parent → ∃ t r, t ∈ cs ∧ q = parent ++ t.name :: r
  | [], parent, q => by
    intro h
    simp [enumChildren] at h
  | t :: ts, parent, q => by
    intro h
    simp only [enumChildren, List.mem_append] at h
    rcases h with h | h
    · obtain ⟨r, rfl⟩ := FsTree.mem_enumerateFrom t (parent ++ [t.name]) q h
      exact ⟨t, r, List.mem_cons_self t ts, by simp⟩
    · obtain ⟨t', r, ht', rfl⟩ := mem_enumChildren ts parent q h
      exact ⟨t', r, List.mem_cons_of_mem t ht', rfl⟩
end

mutual
theorem FsTree.nodup_enumerateFrom : ∀ (t : FsTree) (self : Path),
    t.wellNamed = true → (FsTree.enumerateFrom t self).Nodup
  | .file _, _, _ => by simp [FsTree.enumerateFrom]
  | .symlinkDir _ _, _, _ => by simp [FsTree.enumerateFrom]
  | .dir nm cs, self, hw => by
    rw [FsTree.wellNamed, Bool.and_eq_true] at hw
    rw [FsTree.enumerateFrom, List.nodup_cons]
    refine ⟨?_, nodup_enumChildren cs self hw.1 hw.2⟩
    intro hmem
    obtain ⟨t, r, _, heq⟩ := mem_enumChildren cs self self hmem
    have hlen := congrArg List.length heq
    simp at hlen

theorem nodup_enumChildren : ∀ (cs : List FsTree) (parent : Path),
    namesNodup (cs.map FsTree.name) = true → wellNamedList cs = true →
    (enumChildren cs parent).Nodup
  | [], _, _, _ => by simp [enumChildren]
  | t :: ts, parent, hn, hw => by
    rw [List.map_cons, namesNodup, Bool.and_eq_true] at hn
    rw [wellNamedList, Bool.and_eq_true] at hw
    rw [enumChildren]
    refine List.Nodup.append (FsTree.nodup_enumerateFrom t (parent ++ [t.name]) hw.1)
      (nodup_enumChildren ts parent hn.2 hw.2) ?_
    intro q hq1 hq2
    obtain ⟨r, rfl⟩ := FsTree.mem_enumerateFrom t (parent ++ [t.name]) q hq1
    obtain ⟨t', r', ht', heq⟩ := mem_enumChildren ts parent _ hq2
    have heq2 : parent ++ t.name :: r = parent ++ t'.name :: r' := by
      simpa using heq
    have hname : t.name = t'.name := by
      have hcons := List.append_cancel_left heq2
      injection hcons
    have hnot : t.name ∉ ts.map FsTree.name := by
      have h1 := hn.1
      rw [Bool.not_eq_true'] at h1
      intro hc
      have h2 : (ts.map FsTree.name).contains t.name = true := by
        rw [List.contains_eq_any_beq, List.any_eq_true]
        exact ⟨t.name, hc, by simp⟩
      rw [h1] at h2
      cases h2
    exact hnot (hname ▸ List.mem_map_of_mem FsTree.name ht')
end

/-- C9.  The TreeWalker's depth-first enumeration is a total function (it
terminates on every directory tree): its output never depends on symlink
targets — so a symlink cycle cannot make it loop or recurse — it yields
exactly one entry per real or symlinked directory, and on a well-named tree
it visits each directory path at most once. -/
theorem c9_treewalker_total (t : FsTree) (self : Path) :
    FsTree.enumerateFrom t.retarget self = FsTree.enumerateFrom t self ∧
    (FsTree.enumerateFrom t self).length = t.nodeCount ∧
    (t.wellNamed = true → (FsTree.enumerateFrom t self).Nodup) :=
  ⟨FsTree.enumerateFrom_retarget t self, FsTree.length_enumerateFrom t self,
   fun hw => FsTree.nodup_enumerateFrom t self hw⟩

/-- Witness for C9 on a tree containing a symlink cycle (the symlink `loop`
points back at the root): the walk is unaffected by the cycle, counts its
three directory entries, and repeats no path. -/
theorem c9_witness :
    (FsTree.enumerateFrom
        (FsTree.dir "root" [FsTree.dir "a" [FsTree.symlinkDir "loop" ["root"]],
          FsTree.file "f"]).retarget []
      = FsTree.enumerateFrom
          (FsTree.dir "root" [FsTree.dir "a" [FsTree.symlinkDir "loop" ["root"]],
            FsTree.file "f"]) []) ∧
    (FsTree.enumerateFrom
        (FsTree.dir "root" [FsTree.dir "a" [FsTree.symlinkDir "loop" ["root"]],
          FsTree.file "f"]) []).length
      = (FsTree.dir "root" [FsTree.dir "a" [FsTree.symlinkDir "loop" ["root"]],
          FsTree.file "f"]).nodeCount ∧
    (FsTree.enumerateFrom
        (FsTree.dir "root" [FsTree.dir "a" [FsTree.symlinkDir "loop" ["root"]],
          FsTree.file "f"]) []).Nodup :=
  ⟨(c9_treewalker_total
      (FsTree.dir "root" [FsTree.dir "a" [FsTree.symlinkDir "loop" ["root"]],
        FsTree.file "f"]) []).1,
   (c9_treewalker_total
      (FsTree.dir "root" [FsTree.dir "a" [FsTree.symlinkDir "loop" ["root"]],
        FsTree.file "f"]) []).2.1,
   (c9_treewalker_total
      (FsTree.dir "root" [FsTree.dir "a" [FsTree.symlinkDir "loop" ["root"]],
        FsTree.file "f"]) []).2.2 rfl⟩

/-! ## Claim C5: move-cookie association -/

theorem Notifier.expireStep_queue_mono (acc : Notifier) (m : PendingMove) (e : Event)
    (h : e ∈ acc.queue) : e ∈ (Notifier.expireStep acc m).queue := by
  unfold Notifier.expireStep
  rw [Notifier.processDeleted_queue, List.mem_append]
  exact Or.inl h

theorem Notifier.expireStep_emits (acc : Notifier) (m : PendingMove) :
    Event.deleted m.fromPath ∈ (Notifier.expireStep acc m).queue := by
  unfold Notifier.expireStep
  rw [Notifier.processDeleted_queue, List.mem_append, List.mem_cons]
  exact Or.inr (Or.inl rfl)

theorem foldl_expireStep_queue_mono (ds : List PendingMove) (acc : Notifier) (e : Event)
    (h : e ∈ acc.queue) : e ∈ (ds.foldl Notifier.expireStep acc).queue := by
  induction ds generalizing acc with
  | nil => exact h
  | cons d ds ih => exact ih _ (Notifier.expireStep_queue_mono acc d e h)

theorem mem_foldl_expireStep (ds : List PendingMove) (acc : Notifier) (m : PendingMove) :
    m ∈ ds → Event.deleted m.fromPath ∈ (ds.foldl Notifier.expireStep acc).queue := by
  induction ds generalizing acc with
  | nil => intro h; cases h
  | cons d ds ih =>
    intro h
    rw [List.foldl_cons]
    rw [List.mem_cons] at h
    rcases h with rfl | h
    · exact foldl_expireStep_queue_mono ds _ _ (Notifier.expireStep_emits acc m)
    · exact ih _ h

/-- C5.  A `MovedFrom`/`MovedTo` pair carrying the same OS move cookie is
resolved to exactly one `Renamed{from,to}` event and its association entry
is consumed; a pending `MovedFrom` whose bounded window has expired is
translated to `Deleted`; a `MovedTo` with no pending cookie is translated
to `Created`, with the recursive walk's `Created` events following when it
names a directory. -/
theorem c5_move_cookie (n : Notifier) (pend : List PendingMove) (c : Nat)
    (p q root : Path) (w : Nat) (isDir : Bool) (found : List (Path × Bool))
    (hc : ∀ m ∈ pend, m.cookie ≠ c) :
    (((n.processMovedFrom pend c p w).1.processMovedTo
        (n.processMovedFrom pend c p w).2 c q root isDir found).1.queue
        = n.queue ++ [Event.renamed p q] ∧
      ((n.processMovedFrom pend c p w).1.processMovedTo
        (n.processMovedFrom pend c p w).2 c q root isDir found).2 = pend) ∧
    (∀ m ∈ pend, m.ttl = 0 → Event.deleted m.fromPath ∈ (n.tickMoves pend).1.queue) ∧
    ((n.processMovedTo pend c q root isDir found).1.queue
        = n.queue ++ Event.created q ::
            (if isDir then found.map (fun qd => Event.created qd.1) else []) ∧
      (n.processMovedTo pend c q root isDir found).2 = pend) := by
  have hfindn : pend.find? (fun m => m.cookie = c) = none :=
    List.find?_eq_none.mpr (fun x hx => by simp [hc x hx])
  have hfind : (pend ++ [(⟨c, p, w⟩ : PendingMove)]).find? (fun m => m.cookie = c)
      = some (⟨c, p, w⟩ : PendingMove) := by
    rw [List.find?_append, hfindn]
    simp
  refine ⟨?_, ?_, ?_⟩
  · constructor
    · show (n.processMovedTo (pend ++ [(⟨c, p, w⟩ : PendingMove)]) c q root isDir
          found).1.queue = _
      unfold Notifier.processMovedTo
      rw [hfind]
      rfl
    · show (n.processMovedTo (pend ++ [(⟨c, p, w⟩ : PendingMove)]) c q root isDir
          found).2 = pend
      unfold Notifier.processMovedTo
      rw [hfind]
      show (pend ++ [(⟨c, p, w⟩ : PendingMove)]).filter (fun m2 => m2.cookie ≠ c) = pend
      rw [List.filter_append]
      have h1 : pend.filter (fun m2 => m2.cookie ≠ c) = pend :=
        List.filter_eq_self.mpr (fun m hm => by simp [hc m hm])
      rw [h1]
      simp
  · intro m hm ht
    unfold Notifier.tickMoves
    apply mem_foldl_expireStep
    rw [List.mem_filter]
    exact ⟨hm, by simp [ht]⟩
  · constructor
    · unfold Notifier.processMovedTo
      rw [hfindn]
      cases isDir with
      | true => simp [Notifier.processCreatedDir_queue]
      | false => simp [Notifier.processCreatedFile, Notifier.emit_queue]
    · unfold Notifier.processMovedTo
      rw [hfindn]

/-- Witness for C5 at concrete inputs: cookie 7 pairs into a single rename,
the expired cookie-5 entry is reported as `Deleted`, and an unmatched
`MovedTo` becomes `Created`. -/
theorem c5_witness :
    (((Notifier.enter.processMovedFrom [⟨5, ["z"], 0⟩] 7 ["a"] 3).1.processMovedTo
        (Notifier.enter.processMovedFrom [⟨5, ["z"], 0⟩] 7 ["a"] 3).2 7 ["b"] [] true []).1.queue
        = Notifier.enter.queue ++ [Event.renamed ["a"] ["b"]] ∧
      ((Notifier.enter.processMovedFrom [⟨5, ["z"], 0⟩] 7 ["a"] 3).1.processMovedTo
        (Notifier.enter.processMovedFrom [⟨5, ["z"], 0⟩] 7 ["a"] 3).2 7 ["b"] [] true []).2
        = [⟨5, ["z"], 0⟩]) ∧
    Event.deleted ["z"] ∈ (Notifier.enter.tickMoves [⟨5, ["z"], 0⟩]).1.queue ∧
    ((Notifier.enter.processMovedTo [⟨5, ["z"], 0⟩] 7 ["b"] [] true []).1.queue
        = Notifier.enter.queue ++ Event.created ["b"] ::
            (if true then ([] : List (Path × Bool)).map (fun qd => Event.created qd.1)
             else []) ∧
      (Notifier.enter.processMovedTo [⟨5, ["z"], 0⟩] 7 ["b"] [] true []).2
        = [⟨5, ["z"], 0⟩]) :=
  ⟨(c5_move_cookie Notifier.enter [⟨5, ["z"], 0⟩] 7 ["a"] ["b"] [] 3 true []
      (by decide)).1,
   (c5_move_cookie Notifier.enter [⟨5, ["z"], 0⟩] 7 ["a"] ["b"] [] 3 true []
      (by decide)).2.1 ⟨5, ["z"], 0⟩ (by decide) rfl,
   (c5_move_cookie Notifier.enter [⟨5, ["z"], 0⟩] 7 ["a"] ["b"] [] 3 true []
      (by decide)).2.2⟩

/-! ## Claim C1: replaying emitted events reconstructs the tree -/

theorem FsState.paths_append (fs : FsState) (p : Path) (d : Bool) :
    (fs ++ [(p, d)]).paths = fs.paths ++ [p] := by
  simp [FsState.paths]

theorem FsState.dirs_append (fs : FsState) (p : Path) (d : Bool) :
    (fs ++ [(p, d)]).dirs = fs.dirs ++ (if d then [p] else []) := by
  cases d <;> simp [FsState.dirs, List.filter_append]

theorem FsState.paths_filter (fs : FsState) (p : Path) :
    FsState.paths (fs.filter (fun q => q.1 ≠ p))
      = (FsState.paths fs).filter (fun q => q ≠ p) := by
  induction fs with
  | nil => rfl
  | cons e fs ih =>
    simp only [FsState.paths, ne_eq, decide_not] at ih ⊢
    by_cases h : e.1 = p
    · simp [List.filter_cons, h, ih]
    · simp [List.filter_cons, h, ih]

theorem FsState.dirs_filter (fs : FsState) (p : Path) :
    FsState.dirs (fs.filter (fun q => q.1 ≠ p))
      = (FsState.dirs fs).filter (fun q => q ≠ p) := by
  induction fs with
  | nil => rfl
  | cons e fs ih =>
    simp only [FsState.dirs, ne_eq, decide_not, List.filter_filter] at ih ⊢
    by_cases h : e.1 = p
    · cases hd : e.2 <;> simp [List.filter_cons, h, hd, ih]
    · cases hd : e.2 <;> simp [List.filter_cons, h, hd, ih]

theorem FsState.mem_dirs_mem_paths (fs : FsState) (q : Path) (h : q ∈ fs.dirs) :
    q ∈ fs.paths := by
  simp only [FsState.dirs, List.mem_map, List.mem_filter] at h
  obtain ⟨e, ⟨he, _⟩, rfl⟩ := h
  exact List.mem_map_of_mem Prod.fst he

theorem replay_append_one (es : List Event) (e : Event) (base : List Path) :
    replay (es ++ [e]) base = replayEvent (replay es base) e := by
  simp [replay, List.foldl_append]

theorem Notifier.processDeleted_no_desc_queue (n : Notifier) (p : Path)
    (h : ∀ q ∈ n.table.paths, Path.isStrictlyUnder p q = false) :
    (n.processDeleted p).queue = n.queue ++ [Event.deleted p] := by
  rw [Notifier.processDeleted_queue]
  have hnil : (n.removeWatch p).table.paths.filter (fun q => Path.isStrictlyUnder p q)
      = [] := by
    rw [List.filter_eq_nil_iff]
    intro q hq
    rw [Notifier.removeWatch_paths, List.mem_filter] at hq
    rw [h q hq.1]
    simp
  rw [hnil]
  rfl

theorem Notifier.processDeleted_no_desc_paths (n : Notifier) (p : Path)
    (h : ∀ q ∈ n.table.paths, Path.isStrictlyUnder p q = false) :
    (n.processDeleted p).table.paths = n.table.paths.filter (fun q => q ≠ p) := by
  unfold Notifier.processDeleted
  dsimp only
  have hnil : ((n.removeWatch p).emit (Event.deleted p)).table.paths.filter
      (fun q => Path.isStrictlyUnder p q) = [] := by
    rw [List.filter_eq_nil_iff]
    intro q hq
    rw [Notifier.emit_table, Notifier.removeWatch_paths, List.mem_filter] at hq
    rw [h q hq.1]
    simp
  rw [hnil, List.foldl_nil, Notifier.emit_table, Notifier.removeWatch_paths]

theorem runNotifier_cons (root : Path) (n : Notifier) (m : Mutation) (ms : List Mutation) :
    runNotifier root n (m :: ms) = runNotifier root (stepNotifier root n m) ms := rfl

theorem applyMuts_cons (fs : FsState) (m : Mutation) (ms : List Mutation) :
    applyMuts fs (m :: ms) = applyMuts (applyMut fs m) ms := rfl

theorem c1_aux (root : Path) (ms : List Mutation) :
    ∀ (fs : FsState) (n : Notifier) (base : List Path),
    replay n.queue base = fs.paths → n.table.paths = fs.dirs → validSeq fs ms = true →
    replay (runNotifier root n ms).queue base = (applyMuts fs ms).paths ∧
    (runNotifier root n ms).table.paths = (applyMuts fs ms).dirs := by
  induction ms with
  | nil =>
    intro fs n base h1 h2 _
    exact ⟨h1, h2⟩
  | cons m ms ih =>
    intro fs n base h1 h2 hv
    rw [validSeq, Bool.and_eq_true] at hv
    obtain ⟨hm, hseq⟩ := hv
    rw [runNotifier_cons, applyMuts_cons]
    cases m with
    | create p d =>
      have hp : p ∉ fs.paths := by simpa [validMut] using hm
      have hpd : p ∉ n.table.paths := by
        rw [h2]
        exact fun hx => hp (FsState.mem_dirs_mem_paths fs p hx)
      cases d with
      | true =>
        apply ih (fs ++ [(p, true)]) (n.processCreatedDir p root []) base
        · show replay (n.processCreatedDir p root []).queue base = _
          rw [Notifier.processCreatedDir_queue]
          simp only [List.map_nil]
          rw [replay_append_one, h1]
          show replayEvent fs.paths (Event.created p) = (fs ++ [(p, true)]).paths
          rw [FsState.paths_append]
          simp [replayEvent, hp]
        · rw [Notifier.processCreatedDir_nil_paths, if_neg hpd, h2,
            FsState.dirs_append]
          simp
        · exact hseq
      | false =>
        apply ih (fs ++ [(p, false)]) (n.processCreatedFile p) base
        · show replay (n.queue ++ [Event.created p]) base = _
          rw [replay_append_one, h1]
          show replayEvent fs.paths (Event.created p) = (fs ++ [(p, false)]).paths
          rw [FsState.paths_append]
          simp [replayEvent, hp]
        · show n.table.paths = _
          rw [h2, FsState.dirs_append]
          simp
        · exact hseq
    | delete p =>
      have hm' : ∀ q ∈ fs.paths, Path.isStrictlyUnder p q = false := by
        have := (by simpa [validMut, List.all_eq_true] using hm :
          p ∈ fs.paths ∧ ∀ q ∈ fs.paths, Path.isStrictlyUnder p q = false)
        exact this.2
      have hnd : ∀ q ∈ n.table.paths, Path.isStrictlyUnder p q = false := by
        intro q hq
        rw [h2] at hq
        exact hm' q (FsState.mem_dirs_mem_paths fs q hq)
      apply ih (fs.filter (fun q => q.1 ≠ p)) (n.processDeleted p) base
      · rw [Notifier.processDeleted_no_desc_queue n p hnd, replay_append_one, h1]
        show fs.paths.filter (fun q => q ≠ p) = _
        rw [FsState.paths_filter]
      · rw [Notifier.processDeleted_no_desc_paths n p hnd, h2, FsState.dirs_filter]
      · exact hseq

/-- C1.  For every valid sequence of filesystem mutations under the watched
root — node creations (directories or files) and leaf deletions, delivered
to the translator as the kernel observes them — replaying the emitted
`Created`/`Deleted` events in delivery order over the initial tree state
reconstructs exactly the final tree state, and the WatchTable tracks
exactly the directories of the final state: no creation or deletion is
missed. -/
theorem c1_replay_reconstructs (root : Path) (fs0 : FsState) (ms : List Mutation)
    (n0 : Notifier) (hq : n0.queue = []) (ht : n0.table.paths = fs0.dirs)
    (hv : validSeq fs0 ms = true) :
    replay (runNotifier root n0 ms).queue fs0.paths = (applyMuts fs0 ms).paths ∧
    (runNotifier root n0 ms).table.paths = (applyMuts fs0 ms).dirs := by
  apply c1_aux root ms fs0 n0 fs0.paths ?_ ht hv
  rw [hq]
  rfl

/-- Witness for C1: watching the root `r`, creating `r/s` (a directory) and
`r/s/b` (a file), then deleting both, replays to exactly the final tree
and leaves the WatchTable tracking exactly the surviving directory. -/
theorem c1_witness :
    replay (runNotifier ["r"] (Notifier.enter.installWatch ["r"] ["r"])
        [Mutation.create ["r", "s"] true, Mutation.create ["r", "s", "b"] false,
         Mutation.delete ["r", "s", "b"], Mutation.delete ["r", "s"]]).queue
      (FsState.paths [(["r"], true)])
      = (applyMuts [(["r"], true)]
          [Mutation.create ["r", "s"] true, Mutation.create ["r", "s", "b"] false,
           Mutation.delete ["r", "s", "b"], Mutation.delete ["r", "s"]]).paths ∧
    (runNotifier ["r"] (Notifier.enter.installWatch ["r"] ["r"])
        [Mutation.create ["r", "s"] true, Mutation.create ["r", "s", "b"] false,
         Mutation.delete ["r", "s", "b"], Mutation.delete ["r", "s"]]).table.paths
      = (applyMuts [(["r"], true)]
          [Mutation.create ["r", "s"] true, Mutation.create ["r", "s", "b"] false,
           Mutation.delete ["r", "s", "b"], Mutation.delete ["r", "s"]]).dirs :=
  c1_replay_reconstructs ["r"] [(["r"], true)]
    [Mutation.create ["r", "s"] true, Mutation.create ["r", "s", "b"] false,
     Mutation.delete ["r", "s", "b"], Mutation.delete ["r", "s"]]
    (Notifier.enter.installWatch ["r"] ["r"]) rfl (by decide) (by decide)

end InotifyKit
